import Mathlib

/-!
Verification of the list normalization, natural ordering and set comparison
engine of `list_files_nova.py`.

Strings are embedded as `List Char`.  Python's `str.lower` / `str.casefold`
agree with `Char.toLower` on the basic latin fragment modelled here, `re`'s
`\d` is `Char.isDigit`, and `str.strip` removes the six ASCII whitespace
characters.  Python's stable `list.sort`/`sorted` with a key function is
modelled by `List.insertionSort` over the boolean key order (a stable sort
with respect to a total preorder is unique, so any stable sort is a faithful
model).
-/

namespace Nova

abbrev Str := List Char

/-- The ASCII whitespace characters removed by Python's `str.strip`. -/
def isSpaceChar (c : Char) : Bool :=
  c.toNat = 32 || c.toNat = 9 || c.toNat = 10 || c.toNat = 13 ||
    c.toNat = 11 || c.toNat = 12

/-- `str.strip`: drop leading and trailing whitespace. -/
def strip (l : Str) : Str :=
  ((l.dropWhile isSpaceChar).reverse.dropWhile isSpaceChar).reverse

/-- Helper for `splitLines`: `acc` holds the current (reversed) line. -/
def slAux (acc : Str) : Str → List Str
  | [] => if acc = [] then [] else [acc.reverse]
  | c :: rest =>
    if c = '\n' then acc.reverse :: slAux [] rest
    else if c = '\r' then
      match rest with
      | [] => [acc.reverse]
      | c2 :: rest2 =>
        if c2 = '\n' then acc.reverse :: slAux [] rest2
        else acc.reverse :: slAux [] (c2 :: rest2)
    else slAux (c :: acc) rest

/-- `str.splitlines`: split on `\n`, `\r` and `\r\n`, no trailing empty line. -/
def splitLines (s : Str) : List Str := slAux [] s

/-- A decimal digit `0`-`9` (`\d` over the fragment modelled). -/
def isDig (c : Char) : Bool := decide (48 ≤ c.toNat ∧ c.toNat ≤ 57)

/-- Split a string into maximal runs of digits and maximal runs of non-digits,
keeping empty non-digit runs at the borders: the embedding of
`re.split(r"(\d+)", s)`.  The result always alternates (possibly empty)
non-digit runs at even positions with nonempty digit runs at odd positions. -/
def splitRuns : Str → List Str
  | [] => [[]]
  | c :: cs =>
    match splitRuns cs, isDig c with
    | t :: rest, false => (c :: t) :: rest
    | t :: rest, true =>
      if t = [] then
        match rest with
        | d :: rest2 => [] :: (c :: d) :: rest2
        | [] => [[], [c], []]
      else [] :: [c] :: t :: rest
    | [], _ => [[]]

/-- A segment of an ordering key: an integer run or a case-folded text run. -/
inductive Seg where
  | int : Nat → Seg
  | text : Str → Seg
  deriving DecidableEq, Repr

/-- Value of a digit run (`int(t)` on a decimal digit string). -/
def digitsVal (t : Str) : Nat :=
  t.foldl (fun n c => 10 * n + (c.toNat - 48)) 0

/-- `int(t) if t.isdigit() else t.casefold()` applied to one run. -/
def segOf (t : Str) : Seg :=
  if t ≠ [] ∧ t.all isDig then .int (digitsVal t)
  else .text (t.map Char.toLower)

/-- The embedding of `natural_key`. -/
def natural_key (s : Str) : List Seg :=
  (splitRuns s).map segOf

/-- Python's generic sequence comparison: strict lexicographic order on
lists, given a strict order on elements (a proper prefix is smaller). -/
def llt (elt : α → α → Bool) [DecidableEq α] : List α → List α → Bool
  | [], [] => false
  | [], _ :: _ => true
  | _ :: _, [] => false
  | a :: as, b :: bs =>
    if elt a b then true
    else if a = b then llt elt as bs
    else false

/-- Code-point comparison of characters. -/
def chLt (a b : Char) : Bool := decide (a.toNat < b.toNat)

/-- Strict lexicographic order on strings by code point (Python `str` `<`). -/
def lexLt : Str → Str → Bool := llt chLt

/-- Strict order on segments.  Integer against integer is numeric, text
against text is lexicographic.  A cross-type comparison raises `TypeError`
in Python; it is unreachable between values of `natural_key` (segment types
are determined by the position parity), so the arbitrary total completion
`int < text` is adequate. -/
def segLt : Seg → Seg → Bool
  | .int m, .int n => decide (m < n)
  | .int _, .text _ => true
  | .text _, .int _ => false
  | .text s, .text t => lexLt s t

/-- Strict lexicographic order on ordering keys (Python `list` `<`). -/
def keyLt : List Seg → List Seg → Bool := llt segLt

/-- The non-strict order induced by `keyLt`. -/
def keyLe (a b : List Seg) : Bool := ! keyLt b a

/-- Comparison of strings by their natural keys. -/
def natLeP (a b : Str) : Prop := keyLe (natural_key a) (natural_key b) = true

instance : DecidableRel natLeP := fun _ _ => instDecidableEqBool _ _

/-- `sorted(l, key=natural_key)`: stable sort by the natural key. -/
def sortNat (l : List Str) : List Str := l.insertionSort natLeP

/-- Dedup key: the case-folded line when case-insensitive, the line itself
otherwise.  The stored value `k if case_insensitive else s` is the same
function. -/
def dedupKey (ci : Bool) (s : Str) : Str := if ci then s.map Char.toLower else s

/-- The loop of `_normalize_list`: strip each line, drop blanks, keep the
first occurrence of each dedup key, storing the keyed form. -/
def dedupLoop (ci : Bool) (seen : List Str) : List Str → List Str
  | [] => []
  | l :: ls =>
    let s := strip l
    if s = [] then dedupLoop ci seen ls
    else
      let k := dedupKey ci s
      if k ∈ seen then dedupLoop ci seen ls
      else k :: dedupLoop ci (k :: seen) ls

/-- The embedding of `_normalize_list`. -/
def normalize_list (raw : Str) (ci : Bool) : List Str :=
  sortNat (dedupLoop ci [] (splitLines raw))

/-- Case folding of a string (`str.lower` on the latin fragment). -/
def lowerStr (s : Str) : Str := s.map Char.toLower

/-- Keep the first element of each dedup-key class (declarative form,
used to state the normalization contract). -/
def nubBy (f : Str → Str) : List Str → List Str
  | [] => []
  | a :: as => a :: nubBy f (as.filter (fun b => decide (f b ≠ f a)))
termination_by l => l.length
decreasing_by simp_wf; exact Nat.lt_succ_of_le (List.length_filter_le _ _)

/-- `"\n".join(...)`. -/
def joinNL : List Str → Str
  | [] => []
  | [x] => x
  | x :: y :: xs => x ++ '\n' :: joinNL (y :: xs)

/-- `str(n)` for a count. -/
def natStr (n : Nat) : Str := Nat.toDigits 10 n

/-- One rendered block:
`title + " (" + str(len(arr)) + ")\n" + "\n".join(arr) + ("\n\n" if arr else "\n\n")`. -/
def block (title : Str) (arr : List Str) : Str :=
  title ++ (" (").data ++ natStr arr.length ++ (")\n").data ++ joinNL arr ++
    (if arr ≠ [] then ("\n\n").data else ("\n\n").data)

/-- `len(text.encode("utf-8"))`. -/
def utf8Len (s : Str) : Nat := (s.map Char.utf8Size).sum

/-- `self.comp_large_threshold_mb * 1024 * 1024` with the default 3 MB. -/
def defaultThresholdBytes : Nat := 3 * 1024 * 1024

/-- The single comparison failure of the engine. -/
inductive CmpError where
  | EmptyInput
  deriving DecidableEq, Repr

/-- The three result lists and the combined rendering; this record is also
what `compare_lists` stores in the single-slot `_compare_cache`. -/
structure Cmp where
  only_a : List Str
  only_b : List Str
  both : List Str
  combined : Str
  deriving DecidableEq, Repr

/-- Observable outcome of one `compare_lists` run: the cached result, whether
the combined text was rendered inline, and the final contents of the two
input buffers and of the result box. -/
structure Outcome where
  res : Cmp
  renderedInline : Bool
  bufA : Str
  bufB : Str
  resultBox : Str
  deriving DecidableEq, Repr

instance {e a : Type} [DecidableEq e] [DecidableEq a] :
    DecidableEq (Except e a) := fun x y =>
  match x, y with
  | .ok u, .ok v =>
    if h : u = v then isTrue (by rw [h]) else isFalse (fun hh => h (Except.ok.inj hh))
  | .error u, .error v =>
    if h : u = v then isTrue (by rw [h]) else isFalse (fun hh => h (Except.error.inj hh))
  | .ok _, .error _ => isFalse (fun hh => Except.noConfusion hh)
  | .error _, .ok _ => isFalse (fun hh => Except.noConfusion hh)

/-- The embedding of `compare_lists`.  `set(a) - set(b)` and companions are
modelled as filters over the (duplicate-free) normalized lists; `sorted` over
a Python set is modelled by the stable sort of that filter, a deterministic
refinement (the claims checked here do not depend on the order of distinct
elements with equal keys). -/
def compare_lists (a_raw b_raw : Str) (ci reduce : Bool) (threshold : Nat) :
    Except CmpError Outcome :=
  if a_raw = [] ∧ b_raw = [] then .error .EmptyInput
  else
    let a := normalize_list a_raw ci
    let b := normalize_list b_raw ci
    let only_a := sortNat (a.filter (fun x => decide (x ∉ b)))
    let only_b := sortNat (b.filter (fun x => decide (x ∉ a)))
    let both := sortNat (a.filter (fun x => decide (x ∈ b)))
    let result_text := block ("Only in A").data only_a ++
      block ("Only in B").data only_b ++ block ("In both").data both
    let r : Cmp := ⟨only_a, only_b, both, result_text⟩
    if reduce = true ∧ utf8Len result_text > threshold then
      Except.ok ⟨r, false, [], [], []⟩
    else
      Except.ok ⟨r, true, a_raw, b_raw, result_text⟩

/-- A filesystem tree: regular files and directories with ordered children. -/
inductive FSEntry where
  | file (name : String)
  | dir (name : String) (children : List FSEntry)

/-- The directory-and-file header contributed by one directory level of
`os.walk`: first the subdirectory names, then the file names, each relative
to the walk root (`pfx` is the path of the current directory). -/
def walkLevel (incD incF : Bool) (pfx : List String) (children : List FSEntry) :
    List (List String) :=
  (if incD then
    children.filterMap (fun e =>
      match e with
      | .dir n _ => some (pfx ++ [n])
      | .file _ => none)
  else []) ++
  (if incF then
    children.filterMap (fun e =>
      match e with
      | .file n => some (pfx ++ [n])
      | .dir _ _ => none)
  else [])

mutual

/-- `os.walk` (top-down) of one directory's children, as collected by
`gather_names` in recursive mode. -/
def walkDir (incD incF : Bool) (pfx : List String) (children : List FSEntry) :
    List (List String) :=
  walkLevel incD incF pfx children ++ walkEntries incD incF pfx children

/-- Recursion of `os.walk` into each subdirectory, left to right. -/
def walkEntries (incD incF : Bool) (pfx : List String) :
    List FSEntry → List (List String)
  | [] => []
  | .file _ :: es => walkEntries incD incF pfx es
  | .dir n cs :: es =>
    walkDir incD incF (pfx ++ [n]) cs ++ walkEntries incD incF pfx es

end

/-- Non-recursive mode: each immediate child is checked with the directory
toggle first and the file toggle second, contributing its bare name. -/
def shallowNames (incD incF : Bool) (children : List FSEntry) :
    List (List String) :=
  children.foldr (fun e acc =>
    (match e with
     | .dir n _ => if incD then [[n]] else []
     | .file _ => []) ++
    (match e with
     | .file n => if incF then [[n]] else []
     | .dir _ _ => []) ++ acc) []

/-- `Path(n).name`: the final component of a relative path. -/
def lastComp (p : List String) : String := p.getLastD ""

/-- A relative path rendered with `/`, as the collected name strings. -/
def pathStr (p : List String) : Str := (String.intercalate "/" p).data

/-- Sort by case-folded text (`str.casefold` as sort key). -/
def caseLeP (a b : Str) : Prop := (! lexLt (lowerStr b) (lowerStr a)) = true

instance : DecidableRel caseLeP := fun _ _ => instDecidableEqBool _ _

/-- Sort by raw code-point order (`sort` with no key). -/
def rawLeP (a b : Str) : Prop := (! lexLt b a) = true

instance : DecidableRel rawLeP := fun _ _ => instDecidableEqBool _ _

/-- The final ordering of `gather_names`: natural sort wins over the
case-insensitive toggle; with neither toggle the raw order is used. -/
def sortNames (natSort ciSort : Bool) (l : List Str) : List Str :=
  if natSort then sortNat l
  else if ciSort then l.insertionSort caseLeP
  else l.insertionSort rawLeP

/-- The embedding of `gather_names` over a filesystem tree: collect, then
optionally drop entries whose final component equals the output file's base
name, then sort. -/
def gather_names (recurse incD incF skipOut : Bool) (outName : List String)
    (natSort ciSort : Bool) (children : List FSEntry) : List Str :=
  let names := if recurse then walkDir incD incF [] children
               else shallowNames incD incF children
  let names :=
    if skipOut then names.filter (fun p => decide (lastComp p ≠ lastComp outName))
    else names
  sortNames natSort ciSort (names.map pathStr)

/-- The pre-sort collection of `gather_names` (after the skip filter),
used to state which entries are kept and which are dropped. -/
def collectedPaths (recurse incD incF : Bool) (children : List FSEntry) :
    List (List String) :=
  if recurse then walkDir incD incF [] children
  else shallowNames incD incF children

/-- Is a segment an integer segment? -/
def isIntSeg : Seg → Bool
  | .int _ => true
  | .text _ => false

/-- A union of two lists keeping the left list's elements first; for
duplicate-free inputs this enumerates `A ∪ B` without repetition. -/
def unionList (a b : List Str) : List Str :=
  a ++ b.filter (fun x => decide (x ∉ a))

/-- Modelled from the spec: a rendered block as §4.4 words it, the header
`"<title> (<count>)"` on its own line, one item per line, then a single
blank separator line regardless of whether the block is empty. -/
def blockClaim (title : Str) (arr : List Str) : Str :=
  title ++ (" (").data ++ natStr arr.length ++ (")\n").data ++
    (arr.map (fun x => x ++ ['\n'])).flatten ++ ("\n").data

/-- What the source's `block` actually renders: for a nonempty block exactly
the spec's header/items/blank-line shape, but an empty block gets an extra
empty line (the empty `"\n".join` still being followed by `"\n\n"` after the
header's newline). -/
def blockAmended (title : Str) (arr : List Str) : Str :=
  if arr = [] then title ++ (" (0)\n\n\n").data
  else blockClaim title arr

/-- A string free of line boundaries (it survives a join/split round trip). -/
def noNL (l : Str) : Prop := '\n' ∉ l ∧ '\r' ∉ l

/-- The alternation invariant of `splitRuns`: a (possibly empty) non-digit
run, then alternately nonempty digit runs and non-digit runs, ending with a
non-digit run. -/
inductive GoodRuns : List Str → Prop where
  | single {t : Str} : (∀ c ∈ t, isDig c = false) → GoodRuns [t]
  | cons {t d : Str} {rest : List Str} :
      (∀ c ∈ t, isDig c = false) → d ≠ [] → (∀ c ∈ d, isDig c = true) →
      GoodRuns rest → GoodRuns (t :: d :: rest)

/-! ### Character-level lemmas -/

theorem char_eq_of_toNat_eq {a b : Char} (h : a.toNat = b.toNat) : a = b :=
  Char.eq_of_val_eq (UInt32.ext h)

theorem char_toNat_ofNat {n : Nat} (h : n < 55296) : (Char.ofNat n).toNat = n := by
  have hv : n.isValidChar := Or.inl h
  unfold Char.ofNat
  rw [dif_pos hv]
  rfl

theorem toNat_toLower (c : Char) :
    (Char.toLower c).toNat =
      if 65 ≤ c.toNat ∧ c.toNat ≤ 90 then c.toNat + 32 else c.toNat := by
  unfold Char.toLower
  split
  next h => rw [if_pos h]; exact char_toNat_ofNat (by omega)
  next h => rw [if_neg h]

theorem toLower_idem (c : Char) :
    Char.toLower (Char.toLower c) = Char.toLower c := by
  apply char_eq_of_toNat_eq
  rw [toNat_toLower (Char.toLower c), toNat_toLower c]
  by_cases h : 65 ≤ c.toNat ∧ c.toNat ≤ 90
  · rw [if_pos h, if_neg (by omega)]
  · rw [if_neg h, if_neg h]

theorem isDig_toLower (c : Char) : isDig (Char.toLower c) = isDig c := by
  simp only [isDig, decide_eq_decide, toNat_toLower]
  split
  next h => omega
  next h => exact Iff.rfl

theorem isSpaceChar_toLower (c : Char) :
    isSpaceChar (Char.toLower c) = isSpaceChar c := by
  simp only [isSpaceChar, toNat_toLower]
  split
  next h =>
    have l : (decide (c.toNat + 32 = 32) || decide (c.toNat + 32 = 9) ||
        decide (c.toNat + 32 = 10) || decide (c.toNat + 32 = 13) ||
        decide (c.toNat + 32 = 11) || decide (c.toNat + 32 = 12)) = false := by
      simp only [Bool.or_eq_false_iff, decide_eq_false_iff_not]
      omega
    have r : (decide (c.toNat = 32) || decide (c.toNat = 9) ||
        decide (c.toNat = 10) || decide (c.toNat = 13) ||
        decide (c.toNat = 11) || decide (c.toNat = 12)) = false := by
      simp only [Bool.or_eq_false_iff, decide_eq_false_iff_not]
      omega
    rw [l, r]
  next h => rfl

theorem toLower_ne_nl {c : Char} (hc : c ≠ '\n') : Char.toLower c ≠ '\n' := by
  intro h
  apply hc
  apply char_eq_of_toNat_eq
  have h10 : ('\n').toNat = 10 := rfl
  have h2 := congrArg Char.toNat h
  rw [toNat_toLower] at h2
  rw [h10] at h2 ⊢
  split at h2
  · omega
  · exact h2

theorem toLower_ne_cr {c : Char} (hc : c ≠ '\r') : Char.toLower c ≠ '\r' := by
  intro h
  apply hc
  apply char_eq_of_toNat_eq
  have h13 : ('\r').toNat = 13 := rfl
  have h2 := congrArg Char.toNat h
  rw [toNat_toLower] at h2
  rw [h13] at h2 ⊢
  split at h2
  · omega
  · exact h2

/-! ### The strict lexicographic order: irreflexive, asymmetric, transitive,
connected -/

section Llt

variable {α : Type} [DecidableEq α] {elt : α → α → Bool}

theorem llt_irrefl (hirr : ∀ x, elt x x = false) (l : List α) :
    llt elt l l = false := by
  induction l with
  | nil => rfl
  | cons a as ih => simp [llt, hirr a, ih]

theorem llt_asymm (hasym : ∀ x y, elt x y = true → elt y x = false) (a : List α) :
    ∀ b, llt elt a b = true → llt elt b a = false := by
  induction a with
  | nil =>
    intro b h
    cases b with
    | nil => simp [llt] at h
    | cons y ys => rfl
  | cons a as ih =>
    intro b h
    cases b with
    | nil => simp [llt] at h
    | cons b bs =>
      by_cases hab : elt a b = true
      · have hba := hasym a b hab
        have hne : b ≠ a := by
          intro hba2
          subst hba2
          rw [hasym b b hab] at hab
          exact Bool.false_ne_true hab
        simp [llt, hba, hne]
      · rw [Bool.not_eq_true] at hab
        simp only [llt, hab, Bool.false_eq_true, if_false] at h
        by_cases heq : a = b
        · subst heq
          simp only [if_pos rfl] at h
          simp [llt, hab, ih bs h]
        · rw [if_neg heq] at h
          exact absurd h Bool.false_ne_true

theorem llt_trans (htr : ∀ x y z, elt x y = true → elt y z = true → elt x z = true)
    (a : List α) : ∀ b c, llt elt a b = true → llt elt b c = true →
      llt elt a c = true := by
  induction a with
  | nil =>
    intro b c h1 h2
    cases c with
    | nil =>
      cases b with
      | nil => simp [llt] at h1
      | cons x xs => simp [llt] at h2
    | cons y ys => rfl
  | cons a as ih =>
    intro b c h1 h2
    cases b with
    | nil => simp [llt] at h1
    | cons b bs =>
      cases c with
      | nil => simp [llt] at h2
      | cons c cs =>
        by_cases hab : elt a b = true
        · by_cases hbc : elt b c = true
          · simp [llt, htr a b c hab hbc]
          · rw [Bool.not_eq_true] at hbc
            simp only [llt, hbc, Bool.false_eq_true, if_false] at h2
            by_cases heq : b = c
            · subst heq
              simp [llt, hab]
            · rw [if_neg heq] at h2
              exact absurd h2 Bool.false_ne_true
        · rw [Bool.not_eq_true] at hab
          simp only [llt, hab, Bool.false_eq_true, if_false] at h1
          by_cases heq : a = b
          · subst heq
            simp only [if_pos rfl] at h1
            by_cases hac : elt a c = true
            · simp [llt, hac]
            · rw [Bool.not_eq_true] at hac
              simp only [llt, hac, Bool.false_eq_true, if_false] at h2 ⊢
              by_cases heq2 : a = c
              · subst heq2
                simp only [if_pos rfl] at h2 ⊢
                exact ih bs cs h1 h2
              · rw [if_neg heq2] at h2
                exact absurd h2 Bool.false_ne_true
          · rw [if_neg heq] at h1
            exact absurd h1 Bool.false_ne_true

theorem llt_connex (hconn : ∀ x y, elt x y = false → elt y x = false → x = y)
    (a : List α) : ∀ b, llt elt a b = false → llt elt b a = false → a = b := by
  induction a with
  | nil =>
    intro b h1 _
    cases b with
    | nil => rfl
    | cons y ys => simp [llt] at h1
  | cons a as ih =>
    intro b h1 h2
    cases b with
    | nil => simp [llt] at h2
    | cons b bs =>
      by_cases hab : elt a b = true
      · simp [llt, hab] at h1
      · rw [Bool.not_eq_true] at hab
        by_cases hba : elt b a = true
        · simp [llt, hba] at h2
        · rw [Bool.not_eq_true] at hba
          have heq : a = b := hconn a b hab hba
          subst heq
          simp only [llt, hab, Bool.false_eq_true, if_false, if_pos rfl] at h1 h2
          rw [ih bs h1 h2]

end Llt

/-! ### Instantiation at characters, strings, segments, keys -/

theorem chLt_irrefl (c : Char) : chLt c c = false := by simp [chLt]

theorem chLt_asymm (a b : Char) (h : chLt a b = true) : chLt b a = false := by
  simp only [chLt, decide_eq_true_iff] at h
  simp only [chLt, decide_eq_false_iff_not]
  omega

theorem chLt_trans (a b c : Char) (h1 : chLt a b = true) (h2 : chLt b c = true) :
    chLt a c = true := by
  simp only [chLt, decide_eq_true_iff] at h1 h2 ⊢
  omega

theorem chLt_connex (a b : Char) (h1 : chLt a b = false) (h2 : chLt b a = false) :
    a = b := by
  simp only [chLt, decide_eq_false_iff_not] at h1 h2
  exact char_eq_of_toNat_eq (by omega)

theorem lexLt_irrefl (l : Str) : lexLt l l = false :=
  llt_irrefl chLt_irrefl l

theorem lexLt_asymm (a b : Str) (h : lexLt a b = true) : lexLt b a = false :=
  llt_asymm chLt_asymm a b h

theorem lexLt_trans (a b c : Str) (h1 : lexLt a b = true) (h2 : lexLt b c = true) :
    lexLt a c = true :=
  llt_trans chLt_trans a b c h1 h2

theorem lexLt_connex (a b : Str) (h1 : lexLt a b = false) (h2 : lexLt b a = false) :
    a = b :=
  llt_connex chLt_connex a b h1 h2

theorem segLt_irrefl (x : Seg) : segLt x x = false := by
  cases x with
  | int m => simp [segLt]
  | text t => exact lexLt_irrefl t

theorem segLt_asymm (x y : Seg) (h : segLt x y = true) : segLt y x = false := by
  cases x with
  | int m =>
    cases y with
    | int n =>
      simp only [segLt, decide_eq_true_iff] at h
      simp only [segLt, decide_eq_false_iff_not]
      omega
    | text t => rfl
  | text s =>
    cases y with
    | int n => simp [segLt] at h
    | text t => exact lexLt_asymm s t h

theorem segLt_trans (x y z : Seg) (h1 : segLt x y = true) (h2 : segLt y z = true) :
    segLt x z = true := by
  cases x with
  | int m =>
    cases y with
    | int n =>
      cases z with
      | int k =>
        simp only [segLt, decide_eq_true_iff] at h1 h2 ⊢
        omega
      | text u => rfl
    | text t =>
      cases z with
      | int k => simp [segLt] at h2
      | text u => rfl
  | text s =>
    cases y with
    | int n => simp [segLt] at h1
    | text t =>
      cases z with
      | int k => simp [segLt] at h2
      | text u => exact lexLt_trans s t u h1 h2

theorem segLt_connex (x y : Seg) (h1 : segLt x y = false) (h2 : segLt y x = false) :
    x = y := by
  cases x with
  | int m =>
    cases y with
    | int n =>
      simp only [segLt, decide_eq_false_iff_not] at h1 h2
      have : m = n := by omega
      rw [this]
    | text t => simp [segLt] at h1
  | text s =>
    cases y with
    | int n => simp [segLt] at h2
    | text t => rw [lexLt_connex s t h1 h2]

theorem keyLt_asymm (a b : List Seg) (h : keyLt a b = true) : keyLt b a = false :=
  llt_asymm segLt_asymm a b h

theorem keyLt_trans (a b c : List Seg) (h1 : keyLt a b = true)
    (h2 : keyLt b c = true) : keyLt a c = true :=
  llt_trans segLt_trans a b c h1 h2

theorem keyLt_connex (a b : List Seg) (h1 : keyLt a b = false)
    (h2 : keyLt b a = false) : a = b :=
  llt_connex segLt_connex a b h1 h2

theorem natLeP_iff {a b : Str} :
    natLeP a b ↔ keyLt (natural_key b) (natural_key a) = false := by
  unfold natLeP keyLe
  cases h : keyLt (natural_key b) (natural_key a) <;> simp

theorem natLeP_total (a b : Str) : natLeP a b ∨ natLeP b a := by
  rw [natLeP_iff, natLeP_iff]
  cases h : keyLt (natural_key b) (natural_key a) with
  | false => exact Or.inl rfl
  | true => exact Or.inr (keyLt_asymm _ _ h)

theorem natLeP_trans (a b c : Str) (h1 : natLeP a b) (h2 : natLeP b c) :
    natLeP a c := by
  rw [natLeP_iff] at h1 h2 ⊢
  by_cases hca : keyLt (natural_key c) (natural_key a) = true
  · by_cases hbc : keyLt (natural_key b) (natural_key c) = true
    · rw [keyLt_trans _ _ _ hbc hca] at h1
      simp at h1
    · rw [Bool.not_eq_true] at hbc
      rw [keyLt_connex (natural_key c) (natural_key b) h2 hbc] at hca
      rw [h1] at hca
      exact absurd hca Bool.false_ne_true
  · rw [Bool.not_eq_true] at hca
    exact hca

instance : IsTotal Str natLeP := ⟨natLeP_total⟩

instance : IsTrans Str natLeP := ⟨natLeP_trans⟩

/-! ### The stable sort by natural key -/

theorem sortNat_perm (l : List Str) : List.Perm (sortNat l) l :=
  List.perm_insertionSort natLeP l

theorem mem_sortNat {l : List Str} {x : Str} : x ∈ sortNat l ↔ x ∈ l :=
  List.mem_insertionSort natLeP

theorem length_sortNat (l : List Str) : (sortNat l).length = l.length :=
  List.length_insertionSort natLeP l

theorem sortNat_nodup {l : List Str} (h : l.Nodup) : (sortNat l).Nodup :=
  (sortNat_perm l).nodup_iff.mpr h

theorem sortNat_sorted (l : List Str) : (sortNat l).Sorted natLeP :=
  List.sorted_insertionSort natLeP l

theorem sortNat_of_sorted {l : List Str} (h : l.Sorted natLeP) : sortNat l = l :=
  h.insertionSort_eq

/-! ### Structure of `splitRuns` and `natural_key` -/

theorem splitRuns_goodRuns (s : Str) : GoodRuns (splitRuns s) := by
  induction s with
  | nil => exact GoodRuns.single (by intro c hc; cases hc)
  | cons c cs ih =>
    cases hsp : splitRuns cs with
    | nil => rw [hsp] at ih; cases ih
    | cons t rest =>
      rw [hsp] at ih
      cases hd : isDig c with
      | false =>
        simp only [splitRuns, hsp, hd]
        cases ih with
        | single ht =>
          apply GoodRuns.single
          intro x hx
          rcases List.mem_cons.mp hx with hx | hx
          · rw [hx]; exact hd
          · exact ht x hx
        | cons ht hdne hddig hrest =>
          apply GoodRuns.cons _ hdne hddig hrest
          intro x hx
          rcases List.mem_cons.mp hx with hx | hx
          · rw [hx]; exact hd
          · exact ht x hx
      | true =>
        by_cases ht : t = []
        · subst ht
          cases rest with
          | nil =>
            simp only [splitRuns, hsp, hd, if_pos rfl]
            apply GoodRuns.cons (by simp) (by simp)
            · intro x hx
              rw [List.mem_singleton] at hx
              rw [hx]; exact hd
            · exact GoodRuns.single (by simp)
          | cons d rest2 =>
            cases ih with
            | cons htnil hdne hddig hrest =>
              simp only [splitRuns, hsp, hd, if_pos rfl]
              apply GoodRuns.cons (by simp) (by simp) _ hrest
              intro x hx
              rcases List.mem_cons.mp hx with hx | hx
              · rw [hx]; exact hd
              · exact hddig x hx
        · simp only [splitRuns, hsp, hd, if_neg ht]
          apply GoodRuns.cons (by simp) (by simp) _ ih
          intro x hx
          rw [List.mem_singleton] at hx
          rw [hx]; exact hd

theorem GoodRuns.length_odd {rs : List Str} (h : GoodRuns rs) :
    rs.length % 2 = 1 := by
  induction h with
  | single _ => rfl
  | cons _ _ _ _ ih => simp only [List.length_cons]; omega

theorem GoodRuns.get_spec {rs : List Str} (h : GoodRuns rs) :
    ∀ i (hi : i < rs.length),
      (i % 2 = 1 → rs.get ⟨i, hi⟩ ≠ [] ∧ ∀ c ∈ rs.get ⟨i, hi⟩, isDig c = true) ∧
      (i % 2 = 0 → ∀ c ∈ rs.get ⟨i, hi⟩, isDig c = false) := by
  induction h with
  | single ht =>
    intro i hi
    simp only [List.length_singleton] at hi
    have : i = 0 := by omega
    subst this
    exact ⟨by omega, fun _ => ht⟩
  | @cons t d rest ht hdne hddig _ ih =>
    intro i hi
    match i with
    | 0 => exact ⟨by omega, fun _ => ht⟩
    | 1 => exact ⟨fun _ => ⟨hdne, hddig⟩, by omega⟩
    | n + 2 =>
      have hi2 : n < rest.length := by
        simp only [List.length_cons] at hi
        omega
      have := ih n hi2
      constructor
      · intro hpar
        exact this.1 (by omega)
      · intro hpar
        exact this.2 (by omega)

theorem natural_key_length_odd (s : Str) : (natural_key s).length % 2 = 1 := by
  unfold natural_key
  rw [List.length_map]
  exact (splitRuns_goodRuns s).length_odd

theorem natural_key_parity (s : Str) (i : Nat)
    (hi : i < (natural_key s).length) :
    isIntSeg ((natural_key s).get ⟨i, hi⟩) = true ↔ i % 2 = 1 := by
  have hi' : i < (splitRuns s).length := by
    have := hi
    unfold natural_key at this
    rwa [List.length_map] at this
  have hget : (natural_key s).get ⟨i, hi⟩ = segOf ((splitRuns s).get ⟨i, hi'⟩) := by
    simp [natural_key, List.get_eq_getElem, List.getElem_map]
  have hspec := (splitRuns_goodRuns s).get_spec i hi'
  rw [hget]
  constructor
  · intro hint
    by_contra hpar
    have heven : i % 2 = 0 := by omega
    have hnd := hspec.2 heven
    unfold segOf at hint
    split at hint
    · next hcond =>
      rcases hcond with ⟨hne, hall⟩
      rcases List.exists_mem_of_ne_nil _ hne with ⟨c, hc⟩
      have h1 := hnd c hc
      have h2 := List.all_eq_true.mp hall c hc
      rw [h1] at h2
      exact Bool.false_ne_true h2
    · exact Bool.false_ne_true hint
  · intro hpar
    rcases hspec.1 hpar with ⟨hne, hall⟩
    unfold segOf
    rw [if_pos ⟨hne, List.all_eq_true.mpr hall⟩]
    rfl

theorem toLower_of_digit {c : Char} (h : isDig c = true) : Char.toLower c = c := by
  apply char_eq_of_toNat_eq
  rw [toNat_toLower]
  simp only [isDig, decide_eq_true_iff] at h
  rw [if_neg (by omega)]

theorem splitRuns_ne_nil (s : Str) : splitRuns s ≠ [] := by
  intro h
  have hg := splitRuns_goodRuns s
  rw [h] at hg
  cases hg

theorem splitRuns_cons (c : Char) (cs : Str) :
    splitRuns (c :: cs) =
      match splitRuns cs, isDig c with
      | t :: rest, false => (c :: t) :: rest
      | t :: rest, true =>
        if t = [] then
          match rest with
          | d :: rest2 => [] :: (c :: d) :: rest2
          | [] => [[], [c], []]
        else [] :: [c] :: t :: rest
      | [], _ => [[]] := rfl

theorem splitRuns_all_digit {s : Str} (hne : s ≠ [])
    (hd : ∀ c ∈ s, isDig c = true) : splitRuns s = [[], s, []] := by
  induction s with
  | nil => exact absurd rfl hne
  | cons c cs ih =>
    have hc : isDig c = true := hd c (List.mem_cons_self c cs)
    cases cs with
    | nil => rw [splitRuns_cons, hc]; rfl
    | cons c2 cs2 =>
      have hcs : splitRuns (c2 :: cs2) = [[], c2 :: cs2, []] :=
        ih (by simp) (fun x hx => hd x (List.mem_cons_of_mem c hx))
      rw [splitRuns_cons, hcs, hc]; rfl

theorem map_toLower_of_digits {t : Str} (h : ∀ c ∈ t, isDig c = true) :
    t.map Char.toLower = t := by
  have h2 : ∀ c ∈ t, Char.toLower c = id c := fun c hc => toLower_of_digit (h c hc)
  rw [List.map_congr_left h2, List.map_id]

theorem splitRuns_map_toLower (s : Str) :
    splitRuns (s.map Char.toLower) =
      (splitRuns s).map (List.map Char.toLower) := by
  induction s with
  | nil => rfl
  | cons c cs ih =>
    obtain ⟨t, rest, hsp⟩ : ∃ t rest, splitRuns cs = t :: rest := by
      cases h : splitRuns cs with
      | nil => exact absurd h (splitRuns_ne_nil cs)
      | cons t r => exact ⟨t, r, rfl⟩
    rw [List.map_cons, splitRuns_cons, splitRuns_cons, ih, hsp,
      isDig_toLower, List.map_cons]
    cases hd : isDig c with
    | false => rfl
    | true =>
      cases t with
      | nil =>
        cases rest with
        | nil => rfl
        | cons d rest2 => rfl
      | cons a as => rfl

theorem segOf_map_toLower (t : Str) : segOf (t.map Char.toLower) = segOf t := by
  unfold segOf
  by_cases hcond : t ≠ [] ∧ t.all isDig = true
  · have hme : t.map Char.toLower ≠ [] := by
      intro h2
      exact hcond.1 (List.map_eq_nil_iff.mp h2)
    have hall : (t.map Char.toLower).all isDig = true := by
      rw [List.all_eq_true]
      intro x hx
      rcases List.mem_map.mp hx with ⟨c, hc, hcx⟩
      rw [← hcx, isDig_toLower]
      exact List.all_eq_true.mp hcond.2 c hc
    rw [if_pos ⟨hme, hall⟩, if_pos hcond,
      map_toLower_of_digits (List.all_eq_true.mp hcond.2)]
  · have hcond2 : ¬ (t.map Char.toLower ≠ [] ∧ (t.map Char.toLower).all isDig = true) := by
      intro ⟨hme, hall⟩
      apply hcond
      refine ⟨fun h2 => hme (by rw [h2]; rfl), ?_⟩
      rw [List.all_eq_true]
      intro c hc
      have := List.all_eq_true.mp hall (Char.toLower c) (List.mem_map_of_mem _ hc)
      rwa [isDig_toLower] at this
    rw [if_neg hcond2, if_neg hcond, List.map_map]
    have : ∀ c ∈ t, (Char.toLower ∘ Char.toLower) c = Char.toLower c :=
      fun c _ => toLower_idem c
    rw [List.map_congr_left this]

theorem natural_key_lower (s : Str) : natural_key (lowerStr s) = natural_key s := by
  unfold natural_key lowerStr
  rw [splitRuns_map_toLower, List.map_map]
  exact List.map_congr_left (fun t _ => segOf_map_toLower t)

theorem natural_key_digits {s : Str} (hne : s ≠ [])
    (hd : ∀ c ∈ s, isDig c = true) :
    natural_key s = [Seg.text [], Seg.int (digitsVal s), Seg.text []] := by
  have hs : segOf s = Seg.int (digitsVal s) := by
    unfold segOf
    rw [if_pos ⟨hne, List.all_eq_true.mpr hd⟩]
  unfold natural_key
  rw [splitRuns_all_digit hne hd]
  simp [hs]
  rfl

/-- C4: `natural_key "file2"` sorts strictly before `natural_key "file10"`,
`natural_key "File2"` equals `natural_key "file2"` (case-fold equivalence);
in general a nonempty digit run yields an `Integer` segment carrying its
(unbounded `Nat`) numeric value, and keys are invariant under case folding
of the input because text segments are stored case-folded. -/
theorem natural_key_spec :
    keyLt (natural_key ("file2").data) (natural_key ("file10").data) = true ∧
    natural_key ("File2").data = natural_key ("file2").data ∧
    (∀ s : Str, s ≠ [] → (∀ c ∈ s, isDig c = true) →
      natural_key s = [Seg.text [], Seg.int (digitsVal s), Seg.text []]) ∧
    (∀ s : Str, natural_key (lowerStr s) = natural_key s) :=
  ⟨by decide, by decide,
   fun _ hne hd => natural_key_digits hne hd,
   natural_key_lower⟩

/-- Witness for C4 at the concrete all-digit input `"12"`. -/
theorem natural_key_spec_witness :
    natural_key ("12").data = [Seg.text [], Seg.int 12, Seg.text []] := by
  have h := natural_key_spec.2.2.1 ("12").data (by decide) (by decide)
  rw [h]
  decide

/-- C9: every natural key is a nonempty alternating sequence of odd length
with text segments at even positions and integer segments at odd positions,
so element-wise comparison of two keys only ever compares segments of the
same type. -/
theorem natural_key_alternation (s : Str) :
    (natural_key s).length % 2 = 1 ∧
    (∀ i (hi : i < (natural_key s).length),
      (isIntSeg ((natural_key s).get ⟨i, hi⟩) = true ↔ i % 2 = 1)) ∧
    (∀ t : Str, ∀ i (hi : i < (natural_key s).length)
      (ht : i < (natural_key t).length),
      isIntSeg ((natural_key s).get ⟨i, hi⟩) =
        isIntSeg ((natural_key t).get ⟨i, ht⟩)) := by
  refine ⟨natural_key_length_odd s, natural_key_parity s, ?_⟩
  intro t i hi ht
  have h1 := natural_key_parity s i hi
  have h2 := natural_key_parity t i ht
  by_cases hp : i % 2 = 1
  · rw [h1.mpr hp, h2.mpr hp]
  · cases hb1 : isIntSeg ((natural_key s).get ⟨i, hi⟩) with
    | true => exact absurd (h1.mp hb1) hp
    | false =>
      cases hb2 : isIntSeg ((natural_key t).get ⟨i, ht⟩) with
      | true => exact absurd (h2.mp hb2) hp
      | false => rfl

/-- Witness for C9: position 1 of the key of `"a1"` is an integer segment. -/
theorem natural_key_alternation_witness :
    isIntSeg ((natural_key ("a1").data).get ⟨1, by decide⟩) = true := by
  have h := (natural_key_alternation ("a1").data).2.1 1 (by decide)
  exact h.mpr (by decide)

/-! ### The normalization pipeline -/

theorem dedupLoop_eq (ci : Bool) :
    ∀ (ls : List Str) (seen : List Str),
      dedupLoop ci seen ls =
        (nubBy (dedupKey ci)
          (((ls.map strip).filter (fun s => decide (s ≠ []))).filter
            (fun s => decide (dedupKey ci s ∉ seen)))).map (dedupKey ci) := by
  intro ls
  induction ls with
  | nil => intro seen; simp [dedupLoop, nubBy]
  | cons l ls ih =>
    intro seen
    by_cases hs : strip l = []
    · have hstep : dedupLoop ci seen (l :: ls) = dedupLoop ci seen ls := by
        simp [dedupLoop, hs]
      have hpipe : ((l :: ls).map strip).filter (fun s => decide (s ≠ [])) =
          (ls.map strip).filter (fun s => decide (s ≠ [])) := by
        simp [List.filter_cons, hs]
      rw [hstep, ih seen, hpipe]
    · have hpipe : ((l :: ls).map strip).filter (fun s => decide (s ≠ [])) =
          strip l :: ((ls.map strip).filter (fun s => decide (s ≠ []))) := by
        simp [List.filter_cons, hs]
      by_cases hk : dedupKey ci (strip l) ∈ seen
      · have hstep : dedupLoop ci seen (l :: ls) = dedupLoop ci seen ls := by
          simp [dedupLoop, hs, hk]
        rw [hstep, ih seen, hpipe, List.filter_cons, if_neg (by simp [hk])]
      · have hstep : dedupLoop ci seen (l :: ls) =
            dedupKey ci (strip l) ::
              dedupLoop ci (dedupKey ci (strip l) :: seen) ls := by
          simp [dedupLoop, hs, hk]
        rw [hstep, ih (dedupKey ci (strip l) :: seen), hpipe, List.filter_cons,
          if_pos (by simp [hk]), nubBy, List.map_cons]
        congr 2
        congr 1
        simp only [List.filter_filter]
        apply List.filter_congr
        intro x _
        by_cases h1 : dedupKey ci x = dedupKey ci (strip l) <;>
          by_cases h2 : dedupKey ci x ∈ seen <;>
            by_cases h3 : x = [] <;> simp [h1, h2, h3]

theorem normalize_list_eq (raw : Str) (ci : Bool) :
    normalize_list raw ci =
      sortNat ((nubBy (dedupKey ci)
        (((splitLines raw).map strip).filter (fun s => decide (s ≠ [])))).map
          (dedupKey ci)) := by
  unfold normalize_list
  rw [dedupLoop_eq]
  have hid : (((splitLines raw).map strip).filter
      (fun s => decide (s ≠ []))).filter
        (fun s => decide (dedupKey ci s ∉ ([] : List Str))) =
      ((splitLines raw).map strip).filter (fun s => decide (s ≠ [])) := by
    apply List.filter_eq_self.mpr
    intro a _
    simp
  rw [hid]

theorem lowerStr_idem (s : Str) : lowerStr (lowerStr s) = lowerStr s := by
  unfold lowerStr
  rw [List.map_map]
  exact List.map_congr_left (fun c _ => toLower_idem c)

theorem nubBy_subset (f : Str → Str) : ∀ (l : List Str), ∀ x ∈ nubBy f l, x ∈ l
  | [] => by simp [nubBy]
  | a :: as => by
    intro x hx
    rw [nubBy] at hx
    rcases List.mem_cons.mp hx with h | h
    · rw [h]; exact List.mem_cons_self a as
    · have hmem := nubBy_subset f (as.filter (fun b => decide (f b ≠ f a))) x h
      exact List.mem_cons_of_mem a (List.mem_of_mem_filter hmem)
termination_by l => l.length
decreasing_by simp_wf; exact Nat.lt_succ_of_le (List.length_filter_le _ _)

theorem nubBy_pairwise (f : Str → Str) :
    ∀ (l : List Str), (nubBy f l).Pairwise (fun a b => f a ≠ f b)
  | [] => by rw [nubBy]; exact List.Pairwise.nil
  | a :: as => by
    rw [nubBy]
    apply List.Pairwise.cons
    · intro b hb
      have hbf := nubBy_subset f _ b hb
      have hpred := List.of_mem_filter hbf
      simp only [decide_eq_true_iff] at hpred
      exact fun hfa => hpred (by rw [hfa])
    · exact nubBy_pairwise f _
termination_by l => l.length
decreasing_by simp_wf; exact Nat.lt_succ_of_le (List.length_filter_le _ _)

theorem normalize_nodup (raw : Str) (ci : Bool) : (normalize_list raw ci).Nodup := by
  rw [normalize_list_eq]
  apply sortNat_nodup
  show ((nubBy (dedupKey ci) _).map (dedupKey ci)).Pairwise (fun a b => a ≠ b)
  exact (List.pairwise_map).mpr (nubBy_pairwise (dedupKey ci) _)

/-- C2: `_normalize_list` splits the raw text on line boundaries, trims each
line, drops lines that become empty, keeps only the first occurrence of each
dedup key — the case-folded line when `caseInsensitive` is true, the exact
line otherwise — stores the keyed form (so in case-insensitive mode the
stored value is the case-folded line, not the original casing), and finally
sorts by natural key; consequently in case-insensitive mode every output
value equals its own case-folded form. -/
theorem normalize_list_contract (raw : Str) (ci : Bool) :
    normalize_list raw ci =
      sortNat ((nubBy (dedupKey ci)
        (((splitLines raw).map strip).filter (fun s => decide (s ≠ [])))).map
          (dedupKey ci)) ∧
    (∀ x ∈ normalize_list raw true, x = lowerStr x) := by
  refine ⟨normalize_list_eq raw ci, ?_⟩
  intro x hx
  rw [normalize_list_eq raw true, mem_sortNat] at hx
  rcases List.mem_map.mp hx with ⟨y, _, hy⟩
  rw [← hy]
  show lowerStr y = lowerStr (lowerStr y)
  rw [lowerStr_idem]

/-- C3: `compare_lists` fails with `EmptyInput` exactly when both raw inputs
are the empty string; whenever at least one input is non-empty it does not
fail. -/
theorem compare_lists_emptyInput (a_raw b_raw : Str) (ci reduce : Bool)
    (threshold : Nat) :
    compare_lists a_raw b_raw ci reduce threshold =
        Except.error CmpError.EmptyInput ↔
      (a_raw = [] ∧ b_raw = []) := by
  unfold compare_lists
  by_cases h : a_raw = [] ∧ b_raw = []
  · rw [if_pos h]
    simp [h]
  · rw [if_neg h]
    constructor
    · intro hcontr
      dsimp only at hcontr
      split at hcontr <;> exact Except.noConfusion hcontr
    · intro hh
      exact absurd hh h


/-! ### The comparison engine -/

theorem compare_lists_ok {a_raw b_raw : Str} {ci reduce : Bool} {threshold : Nat}
    {r : Outcome}
    (h : compare_lists a_raw b_raw ci reduce threshold = Except.ok r) :
    r.res.only_a = sortNat ((normalize_list a_raw ci).filter
      (fun x => decide (x ∉ normalize_list b_raw ci))) ∧
    r.res.only_b = sortNat ((normalize_list b_raw ci).filter
      (fun x => decide (x ∉ normalize_list a_raw ci))) ∧
    r.res.both = sortNat ((normalize_list a_raw ci).filter
      (fun x => decide (x ∈ normalize_list b_raw ci))) ∧
    r.res.combined = block (("Only in A").data) r.res.only_a ++
      block (("Only in B").data) r.res.only_b ++
      block (("In both").data) r.res.both ∧
    (if reduce = true ∧ utf8Len r.res.combined > threshold
     then r.renderedInline = false ∧ r.bufA = [] ∧ r.bufB = [] ∧ r.resultBox = []
     else r.renderedInline = true ∧ r.bufA = a_raw ∧ r.bufB = b_raw ∧
       r.resultBox = r.res.combined) := by
  unfold compare_lists at h
  split at h
  · exact Except.noConfusion h
  · dsimp only at h
    split at h
    next hcond =>
      rw [Except.ok.injEq] at h
      subst h
      exact ⟨rfl, rfl, rfl, rfl, by rw [if_pos hcond]; exact ⟨rfl, rfl, rfl, rfl⟩⟩
    next hcond =>
      rw [Except.ok.injEq] at h
      subst h
      exact ⟨rfl, rfl, rfl, rfl, by rw [if_neg hcond]; exact ⟨rfl, rfl, rfl, rfl⟩⟩

/-- C1: on every accepted input, `onlyA`, `onlyB` and `both` partition the
union of the two normalized lists: each element of the union lies in exactly
one of the three outputs, and the three lengths add up to the size of the
union. -/
theorem compare_partition (a_raw b_raw : Str) (ci reduce : Bool)
    (threshold : Nat) (r : Outcome)
    (h : compare_lists a_raw b_raw ci reduce threshold = Except.ok r) :
    (∀ x, x ∈ unionList (normalize_list a_raw ci) (normalize_list b_raw ci) ↔
      (x ∈ r.res.only_a ∨ x ∈ r.res.only_b ∨ x ∈ r.res.both)) ∧
    (∀ x, ¬(x ∈ r.res.only_a ∧ x ∈ r.res.only_b) ∧
      ¬(x ∈ r.res.only_a ∧ x ∈ r.res.both) ∧
      ¬(x ∈ r.res.only_b ∧ x ∈ r.res.both)) ∧
    r.res.only_a.length + r.res.only_b.length + r.res.both.length =
      (unionList (normalize_list a_raw ci) (normalize_list b_raw ci)).length := by
  obtain ⟨ha, hb, hc, _, _⟩ := compare_lists_ok h
  rw [ha, hb, hc]
  refine ⟨?_, ?_, ?_⟩
  · intro x
    simp only [unionList, List.mem_append, mem_sortNat, List.mem_filter,
      decide_eq_true_iff]
    by_cases hxa : x ∈ normalize_list a_raw ci <;>
      by_cases hxb : x ∈ normalize_list b_raw ci <;> simp [hxa, hxb]
  · intro x
    simp only [mem_sortNat, List.mem_filter, decide_eq_true_iff]
    by_cases hxa : x ∈ normalize_list a_raw ci <;>
      by_cases hxb : x ∈ normalize_list b_raw ci <;> simp [hxa, hxb]
  · rw [length_sortNat, length_sortNat, length_sortNat, unionList,
      List.length_append]
    have hsplit := List.length_eq_length_filter_add
      (l := normalize_list a_raw ci)
      (fun x => decide (x ∉ normalize_list b_raw ci))
    have hcompl : (normalize_list a_raw ci).filter
        (fun x => ! decide (x ∉ normalize_list b_raw ci)) =
        (normalize_list a_raw ci).filter
          (fun x => decide (x ∈ normalize_list b_raw ci)) := by
      apply List.filter_congr
      intro x _
      by_cases hx : x ∈ normalize_list b_raw ci <;> simp [hx]
    rw [hcompl] at hsplit
    omega

/-- Witness for C1 at a concrete comparison. -/
theorem compare_partition_witness :
    (compare_lists ("a\nb").data ("b").data false false 99999).toOption.map
      (fun r => r.res.only_a.length + r.res.only_b.length + r.res.both.length) =
    (compare_lists ("a\nb").data ("b").data false false 99999).toOption.map
      (fun _ => (unionList (normalize_list ("a\nb").data false)
        (normalize_list ("b").data false)).length) := by
  cases hr : compare_lists ("a\nb").data ("b").data false false 99999 with
  | error e => cases e; exact absurd hr (by decide)
  | ok r =>
    simp only [Except.toOption, Option.map]
    rw [(compare_partition _ _ false false 99999 r hr).2.2]

/-- C6 as stated is false: the reduce flag does not only control inline
rendering — at a concrete input whose rendering exceeds the threshold it
also erases input buffer A (and B), an effect absent when the flag is off. -/
theorem compare_reduce_claim_cex :
    (compare_lists ("a").data ("b").data false true 0).toOption.map
        (fun o => o.bufA) ≠
      (compare_lists ("a").data ("b").data false false 0).toOption.map
        (fun o => o.bufA) := by decide

/-- C6 amended: two runs of `compare_lists` on the same inputs differing only
in the reduce flag produce the same `ComparisonResult` (three sets plus the
combined rendering cached for export); the flag affects only presentation
state — whether the result is rendered inline and, when reduction triggers,
the clearing of the input buffers. -/
theorem compare_reduce_result_agree (a_raw b_raw : Str) (ci : Bool) (t : Nat)
    (red1 red2 : Bool) (r1 r2 : Outcome)
    (h1 : compare_lists a_raw b_raw ci red1 t = Except.ok r1)
    (h2 : compare_lists a_raw b_raw ci red2 t = Except.ok r2) :
    r1.res = r2.res := by
  obtain ⟨ha1, hb1, hc1, hd1, _⟩ := compare_lists_ok h1
  obtain ⟨ha2, hb2, hc2, hd2, _⟩ := compare_lists_ok h2
  have ea : r1.res.only_a = r2.res.only_a := ha1.trans ha2.symm
  have eb : r1.res.only_b = r2.res.only_b := hb1.trans hb2.symm
  have ec : r1.res.both = r2.res.both := hc1.trans hc2.symm
  have ed : r1.res.combined = r2.res.combined := by rw [hd1, hd2, ea, eb, ec]
  calc r1.res = ⟨r1.res.only_a, r1.res.only_b, r1.res.both, r1.res.combined⟩ :=
        rfl
    _ = ⟨r2.res.only_a, r2.res.only_b, r2.res.both, r2.res.combined⟩ := by
        rw [ea, eb, ec, ed]
    _ = r2.res := rfl

/-- Witness for the amended C6 at a concrete input and threshold `0`. -/
theorem compare_reduce_result_agree_witness :
    (compare_lists ("a").data ("b").data false true 0).toOption.map
        (fun o => o.res) =
      (compare_lists ("a").data ("b").data false false 0).toOption.map
        (fun o => o.res) := by
  cases hr1 : compare_lists ("a").data ("b").data false true 0 with
  | error e => cases e; exact absurd hr1 (by decide)
  | ok r1 =>
    cases hr2 : compare_lists ("a").data ("b").data false false 0 with
    | error e => cases e; exact absurd hr2 (by decide)
    | ok r2 =>
      simp only [Except.toOption, Option.map]
      rw [compare_reduce_result_agree _ _ false 0 true false r1 r2 hr1 hr2]

/-- C10: when reduction does not trigger, the input buffers A and B are left
unchanged and the result is rendered inline; when the reduce flag is on and
the rendering exceeds the byte threshold, both input buffers are erased and
inline rendering is suppressed, while the full result (whose combined
rendering still covers all three sets) stays cached for export. -/
theorem compare_frame (a_raw b_raw : Str) (ci reduce : Bool) (t : Nat)
    (r : Outcome) (h : compare_lists a_raw b_raw ci reduce t = Except.ok r) :
    (reduce = true ∧ utf8Len r.res.combined > t →
      r.bufA = [] ∧ r.bufB = [] ∧ r.renderedInline = false ∧
        r.resultBox = []) ∧
    (¬(reduce = true ∧ utf8Len r.res.combined > t) →
      r.bufA = a_raw ∧ r.bufB = b_raw ∧ r.renderedInline = true ∧
        r.resultBox = r.res.combined) ∧
    r.res.combined = block (("Only in A").data) r.res.only_a ++
      block (("Only in B").data) r.res.only_b ++
      block (("In both").data) r.res.both := by
  obtain ⟨_, _, _, hd, hif⟩ := compare_lists_ok h
  refine ⟨?_, ?_, hd⟩
  · intro hcond
    rw [if_pos hcond] at hif
    exact ⟨hif.2.1, hif.2.2.1, hif.1, hif.2.2.2⟩
  · intro hcond
    rw [if_neg hcond] at hif
    exact ⟨hif.2.1, hif.2.2.1, hif.1, hif.2.2.2⟩

/-- Witness for C10: with the threshold at `0` and the flag on, buffer A is
erased; with a huge threshold it is preserved. -/
theorem compare_frame_witness :
    (compare_lists ("a").data ("b").data false true 0).toOption.map
        (fun o => o.bufA) = some [] ∧
    (compare_lists ("a").data ("b").data false true 99999).toOption.map
        (fun o => o.bufA) = some (("a").data) := by
  constructor
  · cases hr : compare_lists ("a").data ("b").data false true 0 with
    | error e => cases e; exact absurd hr (by decide)
    | ok r =>
      simp only [Except.toOption, Option.map, Option.some.injEq]
      have hgt : (compare_lists ("a").data ("b").data false true 0).toOption.map
          (fun o => decide (utf8Len o.res.combined > 0)) = some true := by decide
      rw [hr] at hgt
      simp only [Except.toOption, Option.map, Option.some.injEq] at hgt
      exact ((compare_frame _ _ false true 0 r hr).1
        ⟨rfl, of_decide_eq_true hgt⟩).1
  · cases hr : compare_lists ("a").data ("b").data false true 99999 with
    | error e => cases e; exact absurd hr (by decide)
    | ok r =>
      simp only [Except.toOption, Option.map, Option.some.injEq]
      have hle : (compare_lists ("a").data ("b").data false true
          99999).toOption.map
          (fun o => decide (utf8Len o.res.combined > 99999)) = some false := by
        decide
      rw [hr] at hle
      simp only [Except.toOption, Option.map, Option.some.injEq] at hle
      refine ((compare_frame _ _ false true 99999 r hr).2.1 ?_).1
      intro hcond
      exact absurd hcond.2 (of_decide_eq_false hle)


/-! ### Rendering -/

theorem joinNL_cons_append (x : Str) (xs : List Str) (l : Str) :
    joinNL (x :: xs) ++ ('\n' :: l) =
      ((x :: xs).map (fun s => s ++ ['\n'])).flatten ++ l := by
  induction xs generalizing x with
  | nil =>
    simp only [joinNL, List.map_cons, List.map_nil, List.flatten_cons,
      List.flatten_nil, List.append_nil, List.append_assoc,
      List.singleton_append]
  | cons y ys ih =>
    have e1 : joinNL (x :: y :: ys) = x ++ '\n' :: joinNL (y :: ys) := rfl
    have e2 : ((x :: y :: ys).map (fun s => s ++ ['\n'])).flatten =
        (x ++ ['\n']) ++ ((y :: ys).map (fun s => s ++ ['\n'])).flatten := rfl
    rw [e1, e2, List.append_assoc, List.append_assoc, List.append_assoc]
    congr 1
    rw [List.cons_append, List.singleton_append]
    congr 1
    exact ih y

theorem block_eq_blockAmended (t : Str) (arr : List Str) :
    block t arr = blockAmended t arr := by
  cases arr with
  | nil =>
    simp only [block, blockAmended, joinNL, if_pos rfl, ite_self, ite_true,
      List.append_nil, List.append_assoc]
    congr 1
  | cons x xs =>
    rw [blockAmended, if_neg (by simp)]
    unfold block blockClaim
    simp only [ite_self, List.append_assoc]
    congr 3
    congr 1
    exact joinNL_cons_append x xs ['\n']

/-- C7 as stated is false: at a comparison whose `Only in B` block is empty,
the rendered report is not the concatenation of header/items/single blank
separator blocks, because the source appends `"\n".join([]) + "\n\n"` after
the header's newline and so produces an extra blank line. -/
theorem compare_render_claim_cex :
    (compare_lists ("a\nb").data ("b").data false false 99999).toOption.map
        (fun o => o.res.combined) ≠
      (compare_lists ("a\nb").data ("b").data false false 99999).toOption.map
        (fun o => blockClaim (("Only in A").data) o.res.only_a ++
          blockClaim (("Only in B").data) o.res.only_b ++
          blockClaim (("In both").data) o.res.both) := by decide

/-- C7 amended: the report is exactly three blocks in the fixed order
`Only in A`, `Only in B`, `In both`; a nonempty block is its
`"<title> (<count>)"` header line, one item per line, and a single blank
separator line, while an empty block renders as its header line followed by
two blank lines (the empty join contributes an empty line before the blank
separator). -/
theorem compare_render_blocks (a_raw b_raw : Str) (ci reduce : Bool) (t : Nat)
    (r : Outcome) (h : compare_lists a_raw b_raw ci reduce t = Except.ok r) :
    r.res.combined = blockAmended (("Only in A").data) r.res.only_a ++
      blockAmended (("Only in B").data) r.res.only_b ++
      blockAmended (("In both").data) r.res.both := by
  obtain ⟨_, _, _, hd, _⟩ := compare_lists_ok h
  rw [hd, block_eq_blockAmended, block_eq_blockAmended, block_eq_blockAmended]

/-- Witness for the amended C7 at a concrete comparison. -/
theorem compare_render_blocks_witness :
    (compare_lists ("a\nb").data ("b").data false false 99999).toOption.map
        (fun o => o.res.combined) =
      (compare_lists ("a\nb").data ("b").data false false 99999).toOption.map
        (fun o => blockAmended (("Only in A").data) o.res.only_a ++
          blockAmended (("Only in B").data) o.res.only_b ++
          blockAmended (("In both").data) o.res.both) := by
  cases hr : compare_lists ("a\nb").data ("b").data false false 99999 with
  | error e => cases e; exact absurd hr (by decide)
  | ok r =>
    simp only [Except.toOption, Option.map, Option.some.injEq]
    exact compare_render_blocks _ _ false false 99999 r hr



/-! ### Idempotence of normalization -/

theorem strip_getLast? {l : Str} {c : Char}
    (h : (strip l).getLast? = some c) : isSpaceChar c = false := by
  unfold strip at h
  rw [List.getLast?_reverse] at h
  have hm := List.head?_dropWhile_not isSpaceChar
    ((l.dropWhile isSpaceChar).reverse)
  rw [h] at hm
  exact hm

theorem strip_head? {l : Str} {c : Char}
    (h : (strip l).head? = some c) : isSpaceChar c = false := by
  unfold strip at h
  rw [List.head?_reverse] at h
  obtain ⟨w, hw⟩ :=
    List.dropWhile_suffix (l := (l.dropWhile isSpaceChar).reverse) isSpaceChar
  have hX : ((l.dropWhile isSpaceChar).reverse).getLast? = some c := by
    rw [← hw, List.getLast?_append, h]
    rfl
  rw [List.getLast?_reverse] at hX
  have hm := List.head?_dropWhile_not isSpaceChar l
  rw [hX] at hm
  exact hm

theorem dropWhile_eq_self_of_head? {p : Char → Bool} {l : Str}
    (h : ∀ c, l.head? = some c → p c = false) : l.dropWhile p = l := by
  cases l with
  | nil => rfl
  | cons a as => exact List.dropWhile_cons_of_neg (by simp [h a rfl])

theorem strip_eq_self {l : Str}
    (h1 : ∀ c, l.head? = some c → isSpaceChar c = false)
    (h2 : ∀ c, l.getLast? = some c → isSpaceChar c = false) : strip l = l := by
  unfold strip
  rw [dropWhile_eq_self_of_head? h1,
    dropWhile_eq_self_of_head? (fun c hc => h2 c (by rwa [List.head?_reverse] at hc))]
  exact List.reverse_reverse l

theorem strip_idem (l : Str) : strip (strip l) = strip l :=
  strip_eq_self (fun _ h => strip_head? h) (fun _ h => strip_getLast? h)

theorem mem_of_mem_strip {c : Char} {l : Str} (h : c ∈ strip l) : c ∈ l := by
  unfold strip at h
  rw [List.mem_reverse] at h
  have h2 := List.dropWhile_subset isSpaceChar h
  rw [List.mem_reverse] at h2
  exact List.dropWhile_subset isSpaceChar h2

theorem slAux_nil (acc : Str) :
    slAux acc [] = if acc = [] then [] else [acc.reverse] := by
  rw [slAux.eq_def]

theorem slAux_nl (acc rest : Str) :
    slAux acc ('\n' :: rest) = acc.reverse :: slAux [] rest := by
  rw [slAux.eq_def]
  simp

theorem slAux_cr_nil (acc : Str) : slAux acc ['\r'] = [acc.reverse] := by
  rw [slAux.eq_def]
  simp

theorem slAux_crnl (acc rest2 : Str) :
    slAux acc ('\r' :: '\n' :: rest2) = acc.reverse :: slAux [] rest2 := by
  rw [slAux.eq_def]
  simp

theorem slAux_cr_other {c2 : Char} (h3 : c2 ≠ '\n') (acc rest2 : Str) :
    slAux acc ('\r' :: c2 :: rest2) =
      acc.reverse :: slAux [] (c2 :: rest2) := by
  rw [slAux.eq_def]
  simp [h3]

theorem slAux_other {c : Char} (hc1 : c ≠ '\n') (hc2 : c ≠ '\r')
    (acc rest : Str) : slAux acc (c :: rest) = slAux (c :: acc) rest := by
  rw [slAux.eq_def]
  simp [hc1, hc2]

theorem slAux_append {x : Str} (hx : ∀ c ∈ x, c ≠ '\n' ∧ c ≠ '\r') :
    ∀ (acc rest : Str), slAux acc (x ++ rest) = slAux (x.reverse ++ acc) rest := by
  induction x with
  | nil => intro acc rest; simp
  | cons c cs ih =>
    intro acc rest
    have hc := hx c (List.mem_cons_self c cs)
    rw [List.cons_append, slAux_other hc.1 hc.2,
      ih (fun d hd => hx d (List.mem_cons_of_mem c hd)) (c :: acc) rest]
    congr 1
    rw [List.reverse_cons, List.append_assoc]
    rfl

theorem slAux_noNL : ∀ (s acc : Str),
    (∀ c ∈ acc, c ≠ '\n' ∧ c ≠ '\r') →
    ∀ l ∈ slAux acc s, ∀ c ∈ l, c ≠ '\n' ∧ c ≠ '\r'
  | [], acc => by
    intro hacc l hl c hc
    rw [slAux_nil] at hl
    split at hl
    · cases hl
    · rw [List.mem_singleton] at hl
      subst hl
      exact hacc c (List.mem_reverse.mp hc)
  | c0 :: rest, acc => by
    intro hacc l hl c hc
    by_cases h1 : c0 = '\n'
    · subst h1
      rw [slAux_nl] at hl
      rcases List.mem_cons.mp hl with h | h
      · subst h; exact hacc c (List.mem_reverse.mp hc)
      · exact slAux_noNL rest [] (by intro d hd; cases hd) l h c hc
    · by_cases h2 : c0 = '\r'
      · subst h2
        cases rest with
        | nil =>
          rw [slAux_cr_nil, List.mem_singleton] at hl
          subst hl
          exact hacc c (List.mem_reverse.mp hc)
        | cons c2 rest2 =>
          by_cases h3 : c2 = '\n'
          · subst h3
            rw [slAux_crnl] at hl
            rcases List.mem_cons.mp hl with h | h
            · subst h; exact hacc c (List.mem_reverse.mp hc)
            · exact slAux_noNL rest2 [] (by intro d hd; cases hd) l h c hc
          · rw [slAux_cr_other h3] at hl
            rcases List.mem_cons.mp hl with h | h
            · subst h; exact hacc c (List.mem_reverse.mp hc)
            · exact slAux_noNL (c2 :: rest2) [] (by intro d hd; cases hd) l h c hc
      · rw [slAux_other h1 h2] at hl
        refine slAux_noNL rest (c0 :: acc) ?_ l hl c hc
        intro d hd
        rcases List.mem_cons.mp hd with h | h
        · subst h; exact ⟨h1, h2⟩
        · exact hacc d h
termination_by s => s.length
decreasing_by all_goals simp_wf <;> omega

theorem splitLines_joinNL {items : List Str}
    (hne : ∀ x ∈ items, x ≠ [])
    (hnl : ∀ x ∈ items, ∀ c ∈ x, c ≠ '\n' ∧ c ≠ '\r') :
    splitLines (joinNL items) = items := by
  induction items with
  | nil => rfl
  | cons x xs ih =>
    cases xs with
    | nil =>
      have hx := hnl x (List.mem_cons_self x [])
      have hxne := hne x (List.mem_cons_self x [])
      show slAux [] (joinNL [x]) = [x]
      have hJ : joinNL [x] = x ++ [] := by rw [List.append_nil]; rfl
      rw [hJ, slAux_append hx [] [], List.append_nil, slAux_nil,
        if_neg (by simp [hxne]), List.reverse_reverse]
    | cons y ys =>
      have hx := hnl x (List.mem_cons_self x (y :: ys))
      show slAux [] (joinNL (x :: y :: ys)) = x :: y :: ys
      have hJ : joinNL (x :: y :: ys) = x ++ ('\n' :: joinNL (y :: ys)) := rfl
      rw [hJ, slAux_append hx [] _, List.append_nil, slAux_nl,
        List.reverse_reverse]
      congr 1
      exact ih (fun z hz => hne z (List.mem_cons_of_mem x hz))
        (fun z hz => hnl z (List.mem_cons_of_mem x hz))

theorem dedupLoop_clean (ci : Bool) :
    ∀ (l seen : List Str),
      (∀ x ∈ l, strip x = x) → (∀ x ∈ l, x ≠ []) →
      (∀ x ∈ l, dedupKey ci x = x) →
      l.Pairwise (fun a b => dedupKey ci a ≠ dedupKey ci b) →
      (∀ x ∈ l, dedupKey ci x ∉ seen) →
      dedupLoop ci seen l = l := by
  intro l
  induction l with
  | nil => intros; rfl
  | cons a as ih =>
    intro seen hstrip hne hkey hpw hseen
    have hmem := List.mem_cons_self a as
    have ha1 : strip a = a := hstrip a hmem
    have step : dedupLoop ci seen (a :: as) =
        dedupKey ci (strip a) ::
          dedupLoop ci (dedupKey ci (strip a) :: seen) as := by
      have hne2 : ¬ strip a = [] := by rw [ha1]; exact hne a hmem
      have hns : dedupKey ci (strip a) ∉ seen := by
        rw [ha1]; exact hseen a hmem
      simp [dedupLoop, hne2, hns]
    rw [step, ha1, hkey a hmem]
    congr 1
    rcases List.pairwise_cons.mp hpw with ⟨hhead, htail⟩
    apply ih
    · exact fun x hx => hstrip x (List.mem_cons_of_mem a hx)
    · exact fun x hx => hne x (List.mem_cons_of_mem a hx)
    · exact fun x hx => hkey x (List.mem_cons_of_mem a hx)
    · exact htail
    · intro x hx
      rw [List.mem_cons]
      intro hcontr
      rcases hcontr with h | h
      · have := hhead x hx
        rw [hkey a hmem] at this
        exact this h.symm
      · exact hseen x (List.mem_cons_of_mem a hx) h

theorem normalize_sorted (raw : Str) (ci : Bool) :
    (normalize_list raw ci).Sorted natLeP :=
  sortNat_sorted _

theorem normalize_mem_facts {raw : Str} {ci : Bool} {x : Str}
    (hx : x ∈ normalize_list raw ci) :
    x ≠ [] ∧ (∀ c ∈ x, c ≠ '\n' ∧ c ≠ '\r') ∧ strip x = x ∧
      dedupKey ci x = x := by
  rw [normalize_list_eq, mem_sortNat] at hx
  rcases List.mem_map.mp hx with ⟨z, hz, hzx⟩
  have hzg := nubBy_subset _ _ z hz
  rw [List.mem_filter] at hzg
  rcases List.mem_map.mp hzg.1 with ⟨w, hw, hwz⟩
  have hzne : z ≠ [] := by
    have := hzg.2
    simpa using this
  have hwn : ∀ c ∈ w, c ≠ '\n' ∧ c ≠ '\r' := by
    intro c hc
    exact slAux_noNL raw [] (by intro d hd; cases hd) w hw c hc
  have hzn : ∀ c ∈ z, c ≠ '\n' ∧ c ≠ '\r' := by
    intro c hc
    rw [← hwz] at hc
    exact hwn c (mem_of_mem_strip hc)
  have hz_head : ∀ c, z.head? = some c → isSpaceChar c = false := by
    intro c hc
    rw [← hwz] at hc
    exact strip_head? hc
  have hz_last : ∀ c, z.getLast? = some c → isSpaceChar c = false := by
    intro c hc
    rw [← hwz] at hc
    exact strip_getLast? hc
  cases ci with
  | false =>
    have hx2 : x = z := by rw [← hzx]; rfl
    subst hx2
    exact ⟨hzne, hzn, strip_eq_self hz_head hz_last, rfl⟩
  | true =>
    have hx2 : x = z.map Char.toLower := by rw [← hzx]; rfl
    subst hx2
    refine ⟨?_, ?_, ?_, ?_⟩
    · intro hcontr
      exact hzne (List.map_eq_nil_iff.mp hcontr)
    · intro c hc
      rcases List.mem_map.mp hc with ⟨d, hd, hdc⟩
      have hd2 := hzn d hd
      exact ⟨by rw [← hdc]; exact toLower_ne_nl hd2.1,
        by rw [← hdc]; exact toLower_ne_cr hd2.2⟩
    · apply strip_eq_self
      · intro c hc
        rw [List.head?_map] at hc
        cases hzh : z.head? with
        | none => rw [hzh] at hc; exact Option.noConfusion hc
        | some d =>
          rw [hzh] at hc
          have hdc : Char.toLower d = c := Option.some.inj hc
          rw [← hdc, isSpaceChar_toLower]
          exact hz_head d hzh
      · intro c hc
        have hgm : (z.map Char.toLower).getLast? =
            z.getLast?.map Char.toLower := by
          rw [← List.head?_reverse, ← List.map_reverse, List.head?_map,
            List.head?_reverse]
        rw [hgm] at hc
        cases hzh : z.getLast? with
        | none => rw [hzh] at hc; exact Option.noConfusion hc
        | some d =>
          rw [hzh] at hc
          have hdc : Char.toLower d = c := Option.some.inj hc
          rw [← hdc, isSpaceChar_toLower]
          exact hz_last d hzh
    · show (z.map Char.toLower).map Char.toLower = z.map Char.toLower
      exact lowerStr_idem z

/-- C5: re-normalizing the rendered (newline-joined) form of a normalized
list gives back the same list, for both values of the case-insensitive
flag. -/
theorem normalize_list_idem (raw : Str) (ci : Bool) :
    normalize_list (joinNL (normalize_list raw ci)) ci =
      normalize_list raw ci := by
  have hne : ∀ x ∈ normalize_list raw ci, x ≠ [] :=
    fun x hx => (normalize_mem_facts hx).1
  have hnl : ∀ x ∈ normalize_list raw ci, ∀ c ∈ x, c ≠ '\n' ∧ c ≠ '\r' :=
    fun x hx => (normalize_mem_facts hx).2.1
  have hstrip : ∀ x ∈ normalize_list raw ci, strip x = x :=
    fun x hx => (normalize_mem_facts hx).2.2.1
  have hkey : ∀ x ∈ normalize_list raw ci, dedupKey ci x = x :=
    fun x hx => (normalize_mem_facts hx).2.2.2
  have hpw : (normalize_list raw ci).Pairwise
      (fun a b => dedupKey ci a ≠ dedupKey ci b) := by
    apply List.Pairwise.imp_of_mem ?_ (normalize_nodup raw ci)
    intro a b ha hb hab
    rw [hkey a ha, hkey b hb]
    exact hab
  show sortNat (dedupLoop ci [] (splitLines (joinNL (normalize_list raw ci)))) =
    normalize_list raw ci
  rw [splitLines_joinNL hne hnl,
    dedupLoop_clean ci _ [] hstrip hne hkey hpw (by intro x _ h; cases h)]
  exact sortNat_of_sorted (normalize_sorted raw ci)



/-! ### The name collector -/

theorem mem_sortNames {natSort ciSort : Bool} {l : List Str} {x : Str} :
    x ∈ sortNames natSort ciSort l ↔ x ∈ l := by
  by_cases h1 : natSort = true <;> by_cases h2 : ciSort = true <;>
    simp [sortNames, h1, h2, mem_sortNat, List.mem_insertionSort]

/-- C8: with `skipOutputName` set, the sorted collector output contains
exactly the renderings of those collected paths whose final component
differs from the output file's base name — entries matching the base name
are dropped, all others are kept; in particular for a root holding only
`out.txt` and `a.txt` with `outputName = "out.txt"` the collected list is
`["a.txt"]`. -/
theorem gather_names_skip :
    (∀ (recurse incD incF : Bool) (outName : List String)
       (natSort ciSort : Bool) (children : List FSEntry) (x : Str),
       x ∈ gather_names recurse incD incF true outName natSort ciSort
           children ↔
         ∃ p, p ∈ collectedPaths recurse incD incF children ∧
           lastComp p ≠ lastComp outName ∧ x = pathStr p) ∧
    gather_names false false true true ["out.txt"] true true
      [FSEntry.file "out.txt", FSEntry.file "a.txt"] = [("a.txt").data] := by
  constructor
  · intro recurse incD incF outName natSort ciSort children x
    have hdef : gather_names recurse incD incF true outName natSort ciSort
        children =
        sortNames natSort ciSort
          (((collectedPaths recurse incD incF children).filter
            (fun p => decide (lastComp p ≠ lastComp outName))).map pathStr) :=
      rfl
    rw [hdef, mem_sortNames, List.mem_map]
    constructor
    · rintro ⟨p, hp, hx⟩
      rw [List.mem_filter] at hp
      exact ⟨p, hp.1, by simpa using hp.2, hx.symm⟩
    · rintro ⟨p, hp1, hp2, hx⟩
      refine ⟨p, ?_, hx.symm⟩
      rw [List.mem_filter]
      exact ⟨hp1, by simpa using hp2⟩
  · decide


end Nova
